import Mathlib

/-!
Verification of the CFIFO repository: a fixed-capacity circular FIFO
buffer stored in fifo.c, with the empty/full ambiguity at coinciding
cursors resolved by a flag recording whether the last operation was a
read.  The C code moves read/write pointers through a statically
allocated array of NFIFOCAP entries; we embed the pointers as indices
into a list of slots, and the advance-and-wrap pointer arithmetic
becomes index arithmetic with an explicit wrap test, exactly mirroring
the source.  The capacity is a parameter N of the operations; the
source fixes it to NFIFOCAP = 4.
-/

namespace CFIFO

/-- NFIFOCAP from fifo.c: the number of slots of the circular buffer. -/
def NFIFOCAP : Nat := 4

/-- NNAMESIZE from fifo.c: the bound of the Name character array. -/
def NNAMESIZE : Nat := 20

/-- struct FifoEntry from fifo.c: a uint8_t ID, a bounded Name string and
a clock_t TimeStamp.  ID values are the uint8_t range; the buffer never
computes on them, so we carry them as Nat. -/
structure FifoEntry where
  ID : Nat
  Name : String
  TimeStamp : Int
  deriving DecidableEq, Inhabited, Repr

/-- struct Fifo from fifo.c: the slot array, the read and write cursors
(pRd and pWr, pointers in the source, indices here) and the flag fRd
recording whether the last operation was a read. -/
structure Fifo where
  data : List FifoEntry
  pRd : Nat
  pWr : Nat
  fRd : Bool
  deriving DecidableEq, Inhabited, Repr

/-- FifoInit from fifo.c: sets both cursors to the start of the array
and the last operation to read, returns true.  The local defaultEntry
of the source is built and discarded; it is never stored, so the slots
are untouched. -/
def FifoInit (f : Fifo) : Fifo × Bool :=
  ({ f with pRd := 0, pWr := 0, fRd := true }, true)

/-- FifoPut from fifo.c: rejects when the last operation was not a read
and the cursors coincide; otherwise stores the item at the write cursor,
advances it, wrapping to 0 at the end of the array, and records a write. -/
def FifoPut (N : Nat) (f : Fifo) (item : FifoEntry) : Fifo × Bool :=
  if !f.fRd && f.pWr == f.pRd then (f, false)
  else
    ({ f with data := f.data.set f.pWr item
            , pWr := if N ≤ f.pWr + 1 then 0 else f.pWr + 1
            , fRd := false }, true)

/-- FifoGet from fifo.c: rejects when the last operation was a read and
the cursors coincide; otherwise copies the entry at the read cursor out,
advances it, wrapping to 0 at the end of the array, and records a read.
The successful out-parameter write is the some payload. -/
def FifoGet (N : Nat) (f : Fifo) : Fifo × Option FifoEntry :=
  if f.fRd && f.pWr == f.pRd then (f, none)
  else
    ({ f with pRd := if N ≤ f.pRd + 1 then 0 else f.pRd + 1
            , fRd := true }, some (f.data.getD f.pRd default))

/-- An operation on the buffer: an enqueue of an entry or a dequeue. -/
inductive Op where
  | put : FifoEntry → Op
  | get : Op

/-- The state after one operation (the result flag is dropped). -/
def step (N : Nat) (f : Fifo) : Op → Fifo
  | Op.put e => (FifoPut N f e).1
  | Op.get => (FifoGet N f).1

/-- The state after a sequence of operations. -/
def run (N : Nat) (f : Fifo) : List Op → Fifo
  | [] => f
  | op :: ops => run N (step N f op) ops

/-- Whether a single operation succeeds in the given state. -/
def opOk (N : Nat) (f : Fifo) : Op → Bool
  | Op.put e => (FifoPut N f e).2
  | Op.get => (FifoGet N f).2.isSome

/-- Whether every operation of a sequence succeeds when run in order. -/
def allOk (N : Nat) (f : Fifo) : List Op → Bool
  | [] => true
  | op :: ops => opOk N f op && allOk N (step N f op) ops

/-- The number of successful enqueues when running a sequence. -/
def putsOk (N : Nat) (f : Fifo) : List Op → Nat
  | [] => 0
  | Op.put e :: ops =>
    (if (FifoPut N f e).2 then 1 else 0) + putsOk N (step N f (Op.put e)) ops
  | Op.get :: ops => putsOk N (step N f Op.get) ops

/-- The number of successful dequeues when running a sequence. -/
def getsOk (N : Nat) (f : Fifo) : List Op → Nat
  | [] => 0
  | Op.put e :: ops => getsOk N (step N f (Op.put e)) ops
  | Op.get :: ops =>
    (if (FifoGet N f).2.isSome then 1 else 0) + getsOk N (step N f Op.get) ops

/-- The entries delivered by the successful dequeues of a run, in order. -/
def outsOf (N : Nat) (f : Fifo) : List Op → List FifoEntry
  | [] => []
  | Op.put e :: ops => outsOf N (step N f (Op.put e)) ops
  | Op.get :: ops => (FifoGet N f).2.toList ++ outsOf N (step N f Op.get) ops

/-- Structural well-formedness: the slot list has length N and both
cursors are in range. -/
def WF (N : Nat) (f : Fifo) : Prop :=
  f.data.length = N ∧ f.pRd < N ∧ f.pWr < N

/-- The coupling relation between a buffer state and the abstract queue
q it represents: cursors in range, q no longer than the capacity, the
write cursor q.length slots beyond the read cursor modulo N, the flag
consistent with emptiness/fullness when the cursors coincide, and the
i-th queue element sitting i slots beyond the read cursor. -/
def R (N : Nat) (q : List FifoEntry) (f : Fifo) : Prop :=
  f.data.length = N ∧ f.pRd < N ∧ f.pWr < N ∧
  q.length ≤ N ∧
  f.pWr = (f.pRd + q.length) % N ∧
  (f.fRd = true → q.length < N) ∧
  (f.fRd = false → 0 < q.length) ∧
  ∀ i, i < q.length → q.getD i default = f.data.getD ((f.pRd + i) % N) default

/-- The abstract queue step mirrored by a buffer operation. -/
def absStep (N : Nat) (q : List FifoEntry) : Op → List FifoEntry
  | Op.put e => if q.length = N then q else q ++ [e]
  | Op.get => q.tail

/-- The abstract queue after a sequence of operations. -/
def absRun (N : Nat) (q : List FifoEntry) : List Op → List FifoEntry
  | [] => q
  | op :: ops => absRun N (absStep N q op) ops

/-! Arithmetic helpers for the wrap-around index arithmetic. -/

lemma wrap_eq_mod (N x : Nat) (h : x < N) :
    (if N ≤ x + 1 then 0 else x + 1) = (x + 1) % N := by
  split
  · have hx : x + 1 = N := by omega
    rw [hx, Nat.mod_self]
  · exact (Nat.mod_eq_of_lt (by omega)).symm

lemma add_mod_cases (N r i : Nat) (hr : r < N) (hi : i ≤ N) :
    (r + i) % N = if r + i < N then r + i else r + i - N := by
  split
  · exact Nat.mod_eq_of_lt (by omega)
  · rw [Nat.mod_eq_sub_mod (by omega)]
    exact Nat.mod_eq_of_lt (by omega)

lemma add_mod_inj (N r i j : Nat) (hr : r < N) (hi : i < N) (hj : j ≤ N)
    (hij : (r + i) % N = (r + j) % N) : i = j ∨ (i = 0 ∧ j = N) := by
  rw [add_mod_cases N r i hr (Nat.le_of_lt hi), add_mod_cases N r j hr hj] at hij
  split at hij <;> split at hij <;> omega

/-! Case descriptions of the two operations, read off their definitions. -/

lemma fifoPut_cases (N : Nat) (f : Fifo) (e : FifoEntry) :
    (f.fRd = false ∧ f.pWr = f.pRd ∧ FifoPut N f e = (f, false)) ∨
    ((f.fRd = true ∨ f.pWr ≠ f.pRd) ∧
      FifoPut N f e =
        ({ f with data := f.data.set f.pWr e
                , pWr := if N ≤ f.pWr + 1 then 0 else f.pWr + 1
                , fRd := false }, true)) := by
  unfold FifoPut
  rcases hb : (!f.fRd && f.pWr == f.pRd) with _ | _
  · right
    simp only [Bool.and_eq_false_iff, Bool.not_eq_false', beq_eq_false_iff_ne] at hb
    refine ⟨?_, by simp⟩
    rcases hb with hb | hb
    · exact Or.inl hb
    · exact Or.inr hb
  · left
    simp only [Bool.and_eq_true, Bool.not_eq_true', beq_iff_eq] at hb
    exact ⟨hb.1, hb.2, by simp⟩

lemma fifoGet_cases (N : Nat) (f : Fifo) :
    (f.fRd = true ∧ f.pWr = f.pRd ∧ FifoGet N f = (f, none)) ∨
    ((f.fRd = false ∨ f.pWr ≠ f.pRd) ∧
      FifoGet N f =
        ({ f with pRd := if N ≤ f.pRd + 1 then 0 else f.pRd + 1
                , fRd := true }, some (f.data.getD f.pRd default))) := by
  unfold FifoGet
  rcases hb : (f.fRd && f.pWr == f.pRd) with _ | _
  · right
    simp only [Bool.and_eq_false_iff, beq_eq_false_iff_ne] at hb
    exact ⟨hb, by simp⟩
  · left
    simp only [Bool.and_eq_true, beq_iff_eq] at hb
    exact ⟨hb.1, hb.2, by simp⟩

/-! Simulation of the buffer by the abstract queue. -/

lemma R_put_full (N : Nat) (q : List FifoEntry) (f : Fifo) (hR : R N q f)
    (hfull : q.length = N) (e : FifoEntry) : FifoPut N f e = (f, false) := by
  obtain ⟨hlen, hr, hw, hqn, hweq, hft, hff, hsl⟩ := hR
  rcases fifoPut_cases N f e with ⟨_, _, h⟩ | ⟨hc, h⟩
  · exact h
  · exfalso
    have hwr : f.pWr = f.pRd := by
      rw [hweq, hfull, Nat.add_mod_right]
      exact Nat.mod_eq_of_lt hr
    rcases hc with hc | hc
    · have := hft hc; omega
    · exact hc hwr

lemma R_put_ok (N : Nat) (h0 : 0 < N) (q : List FifoEntry) (f : Fifo) (hR : R N q f)
    (hlt : q.length < N) (e : FifoEntry) :
    (FifoPut N f e).2 = true ∧ R N (q ++ [e]) (FifoPut N f e).1 ∧
    (FifoPut N f e).1.pRd = f.pRd := by
  obtain ⟨hlen, hr, hw, hqn, hweq, hft, hff, hsl⟩ := hR
  rcases fifoPut_cases N f e with ⟨hfr, hwr, h⟩ | ⟨hc, h⟩
  · exfalso
    have h0len := hff hfr
    have heq : (f.pRd + q.length) % N = (f.pRd + 0) % N := by
      rw [Nat.add_zero, Nat.mod_eq_of_lt hr, ← hweq]; exact hwr
    have := add_mod_inj N f.pRd q.length 0 hr hlt (Nat.zero_le N) heq
    omega
  · have hwrap : (if N ≤ f.pWr + 1 then 0 else f.pWr + 1) = (f.pWr + 1) % N :=
      wrap_eq_mod N f.pWr hw
    rw [h, hwrap]
    refine ⟨rfl, ⟨?_, ?_, ?_, ?_, ?_, ?_, ?_, ?_⟩, rfl⟩
    · simpa using hlen
    · exact hr
    · exact Nat.mod_lt _ h0
    · simp only [List.length_append, List.length_singleton]; omega
    · dsimp only
      rw [List.length_append, List.length_singleton, hweq, Nat.mod_add_mod,
        Nat.add_assoc]
    · intro hcontra; simp at hcontra
    · intro _; simp only [List.length_append, List.length_singleton]; omega
    · intro i hi
      simp only [List.length_append, List.length_singleton] at hi
      dsimp only
      rcases Nat.lt_or_ge i q.length with hilt | hige
      · have hmlt : (f.pRd + i) % N < N := Nat.mod_lt _ h0
        have hne : f.pWr ≠ (f.pRd + i) % N := by
          intro hmw
          have heq2 : (f.pRd + i) % N = (f.pRd + q.length) % N := by
            rw [← hweq, ← hmw]
          have := add_mod_inj N f.pRd i q.length hr (by omega)
            (Nat.le_of_lt hlt) heq2
          omega
        have hset : (f.data.set f.pWr e).getD ((f.pRd + i) % N) default
            = f.data.getD ((f.pRd + i) % N) default := by
          rw [List.getD_eq_getElem _ _ (by simp only [List.length_set]; omega),
            List.getElem_set_ne hne, ← List.getD_eq_getElem _ _ (by omega)]
        rw [List.getD_append _ _ _ _ hilt, hset]
        exact hsl i hilt
      · have hieq : i = q.length := by omega
        subst hieq
        rw [List.getD_append_right _ _ _ _ hige, Nat.sub_self, List.getD_cons_zero]
        rw [← hweq]
        rw [List.getD_eq_getElem _ _ (by simp only [List.length_set]; omega),
          List.getElem_set_self]

lemma R_get_nil (N : Nat) (f : Fifo) (hR : R N [] f) : FifoGet N f = (f, none) := by
  obtain ⟨hlen, hr, hw, hqn, hweq, hft, hff, hsl⟩ := hR
  rcases fifoGet_cases N f with ⟨_, _, h⟩ | ⟨hc, h⟩
  · exact h
  · exfalso
    have hwr : f.pWr = f.pRd := by
      rw [hweq]; simp [Nat.mod_eq_of_lt hr]
    rcases hc with hc | hc
    · have := hff hc; simp at this
    · exact hc hwr

lemma R_get_cons (N : Nat) (h0 : 0 < N) (e : FifoEntry) (q1 : List FifoEntry)
    (f : Fifo) (hR : R N (e :: q1) f) :
    FifoGet N f = ({ f with pRd := (f.pRd + 1) % N, fRd := true }, some e) ∧
    R N q1 (FifoGet N f).1 := by
  obtain ⟨hlen, hr, hw, hqn, hweq, hft, hff, hsl⟩ := hR
  rcases fifoGet_cases N f with ⟨hfr, hwr, h⟩ | ⟨hc, h⟩
  · exfalso
    have hltN := hft hfr
    have heq : (f.pRd + (e :: q1).length) % N = (f.pRd + 0) % N := by
      rw [Nat.add_zero, Nat.mod_eq_of_lt hr, ← hweq]; exact hwr
    have := add_mod_inj N f.pRd (e :: q1).length 0 hr hltN (Nat.zero_le N) heq
    simp only [List.length_cons] at this
    omega
  · have hwrap : (if N ≤ f.pRd + 1 then 0 else f.pRd + 1) = (f.pRd + 1) % N :=
      wrap_eq_mod N f.pRd hr
    have hE : f.data.getD f.pRd default = e := by
      have := hsl 0 (by simp)
      simpa [Nat.mod_eq_of_lt hr] using this.symm
    rw [h, hwrap, hE]
    refine ⟨rfl, ?_, ?_, ?_, ?_, ?_, ?_, ?_, ?_⟩
    · exact hlen
    · exact Nat.mod_lt _ h0
    · exact hw
    · simp only [List.length_cons] at hqn; omega
    · dsimp only
      rw [Nat.mod_add_mod, hweq]
      simp only [List.length_cons]
      congr 1
      omega
    · intro _
      simp only [List.length_cons] at hqn
      omega
    · intro hcontra; simp at hcontra
    · intro i hi
      dsimp only
      rw [Nat.mod_add_mod]
      have := hsl (i + 1) (by simp only [List.length_cons]; omega)
      rw [List.getD_cons_succ] at this
      rw [show f.pRd + 1 + i = f.pRd + (i + 1) by omega]
      exact this

/-! Unfolding equations for the runners. -/

@[simp] lemma step_put (N : Nat) (f : Fifo) (e : FifoEntry) :
    step N f (Op.put e) = (FifoPut N f e).1 := rfl

@[simp] lemma step_get (N : Nat) (f : Fifo) :
    step N f Op.get = (FifoGet N f).1 := rfl

@[simp] lemma run_nil (N : Nat) (f : Fifo) : run N f [] = f := rfl

@[simp] lemma run_cons (N : Nat) (f : Fifo) (op : Op) (ops : List Op) :
    run N f (op :: ops) = run N (step N f op) ops := rfl

@[simp] lemma absRun_nil (N : Nat) (q : List FifoEntry) : absRun N q [] = q := rfl

@[simp] lemma absRun_cons (N : Nat) (q : List FifoEntry) (op : Op) (ops : List Op) :
    absRun N q (op :: ops) = absRun N (absStep N q op) ops := rfl

@[simp] lemma putsOk_nil (N : Nat) (f : Fifo) : putsOk N f [] = 0 := rfl

@[simp] lemma putsOk_put (N : Nat) (f : Fifo) (e : FifoEntry) (ops : List Op) :
    putsOk N f (Op.put e :: ops) =
      (if (FifoPut N f e).2 then 1 else 0) + putsOk N (step N f (Op.put e)) ops := rfl

@[simp] lemma putsOk_get (N : Nat) (f : Fifo) (ops : List Op) :
    putsOk N f (Op.get :: ops) = putsOk N (step N f Op.get) ops := rfl

@[simp] lemma getsOk_nil (N : Nat) (f : Fifo) : getsOk N f [] = 0 := rfl

@[simp] lemma getsOk_put (N : Nat) (f : Fifo) (e : FifoEntry) (ops : List Op) :
    getsOk N f (Op.put e :: ops) = getsOk N (step N f (Op.put e)) ops := rfl

@[simp] lemma getsOk_get (N : Nat) (f : Fifo) (ops : List Op) :
    getsOk N f (Op.get :: ops) =
      (if (FifoGet N f).2.isSome then 1 else 0) + getsOk N (step N f Op.get) ops := rfl

@[simp] lemma outsOf_nil (N : Nat) (f : Fifo) : outsOf N f [] = [] := rfl

@[simp] lemma outsOf_put (N : Nat) (f : Fifo) (e : FifoEntry) (ops : List Op) :
    outsOf N f (Op.put e :: ops) = outsOf N (step N f (Op.put e)) ops := rfl

@[simp] lemma outsOf_get (N : Nat) (f : Fifo) (ops : List Op) :
    outsOf N f (Op.get :: ops) =
      (FifoGet N f).2.toList ++ outsOf N (step N f Op.get) ops := rfl

@[simp] lemma allOk_nil (N : Nat) (f : Fifo) : allOk N f [] = true := rfl

@[simp] lemma allOk_cons (N : Nat) (f : Fifo) (op : Op) (ops : List Op) :
    allOk N f (op :: ops) = (opOk N f op && allOk N (step N f op) ops) := rfl

/-! Step- and run-level simulation. -/

lemma R_step (N : Nat) (h0 : 0 < N) (q : List FifoEntry) (f : Fifo) (hR : R N q f)
    (op : Op) : R N (absStep N q op) (step N f op) := by
  cases op with
  | put e =>
    by_cases hq : q.length = N
    · have h := R_put_full N q f hR hq e
      simpa [absStep, hq, h] using hR
    · have hlt : q.length < N := Nat.lt_of_le_of_ne hR.2.2.2.1 hq
      have h := (R_put_ok N h0 q f hR hlt e).2.1
      simpa [absStep, hq] using h
  | get =>
    cases q with
    | nil =>
      have h := R_get_nil N f hR
      simpa [absStep, h] using hR
    | cons e q1 =>
      have h := (R_get_cons N h0 e q1 f hR).2
      simpa [absStep] using h

lemma R_run (N : Nat) (h0 : 0 < N) (ops : List Op) :
    ∀ q f, R N q f → R N (absRun N q ops) (run N f ops) := by
  induction ops with
  | nil => intro q f hR; exact hR
  | cons op ops ih => intro q f hR; exact ih _ _ (R_step N h0 q f hR op)

lemma R_init (N : Nat) (h0 : 0 < N) (f0 : Fifo) (hlen : f0.data.length = N) :
    R N [] (FifoInit f0).1 := by
  refine ⟨hlen, h0, h0, Nat.zero_le N, by simp [FifoInit], fun _ => h0,
    by simp [FifoInit], ?_⟩
  intro i hi
  simp at hi

lemma counts_run (N : Nat) (h0 : 0 < N) (ops : List Op) :
    ∀ q f, R N q f →
      (absRun N q ops).length + getsOk N f ops = q.length + putsOk N f ops := by
  induction ops with
  | nil => intro q f _; simp
  | cons op ops ih =>
    intro q f hR
    have ihstep := ih (absStep N q op) (step N f op) (R_step N h0 q f hR op)
    cases op with
    | put e =>
      by_cases hq : q.length = N
      · have h := R_put_full N q f hR hq e
        simp only [absRun_cons, putsOk_put, getsOk_put, step_put, h] at ihstep ⊢
        simp only [absStep, hq, if_pos] at ihstep ⊢
        simp only [Bool.false_eq_true, if_false]
        omega
      · have hlt : q.length < N := Nat.lt_of_le_of_ne hR.2.2.2.1 hq
        have h := (R_put_ok N h0 q f hR hlt e).1
        simp only [absRun_cons, putsOk_put, getsOk_put, step_put, h] at ihstep ⊢
        simp only [absStep, if_neg hq] at ihstep ⊢
        simp only [List.length_append, List.length_singleton, if_true] at ihstep ⊢
        omega
    | get =>
      cases q with
      | nil =>
        have h := R_get_nil N f hR
        simp only [absRun_cons, putsOk_get, getsOk_get, step_get, h] at ihstep ⊢
        simp only [absStep, List.tail_nil] at ihstep ⊢
        simp only [Option.isSome_none, Bool.false_eq_true, if_false]
        omega
      | cons e q1 =>
        have h := (R_get_cons N h0 e q1 f hR).1
        simp only [absRun_cons, putsOk_get, getsOk_get, step_get, h] at ihstep ⊢
        simp only [absStep, List.tail_cons, List.length_cons] at ihstep ⊢
        simp only [Option.isSome_some, if_true]
        omega

/-! Phase lemmas: a block of enqueues, a block of dequeues, and
alternating enqueue/dequeue pairs. -/

lemma puts_phase (N : Nat) (h0 : 0 < N) (es : List FifoEntry) :
    ∀ q f, R N q f → q.length + es.length ≤ N →
      allOk N f (es.map Op.put) = true ∧
      R N (q ++ es) (run N f (es.map Op.put)) ∧
      outsOf N f (es.map Op.put) = [] := by
  induction es with
  | nil =>
    intro q f hR _
    simpa using hR
  | cons e es ih =>
    intro q f hR hle
    simp only [List.length_cons] at hle
    have hlt : q.length < N := by omega
    obtain ⟨hok, hR2, _⟩ := R_put_ok N h0 q f hR hlt e
    obtain ⟨hAll, hR3, hOuts⟩ := ih (q ++ [e]) _ hR2
      (by simp only [List.length_append, List.length_singleton]; omega)
    refine ⟨?_, ?_, ?_⟩
    · simp [opOk, hok, hAll]
    · simpa [List.append_assoc] using hR3
    · simpa using hOuts

lemma gets_phase (N : Nat) (h0 : 0 < N) (q : List FifoEntry) :
    ∀ f, R N q f →
      allOk N f (List.replicate q.length Op.get) = true ∧
      R N [] (run N f (List.replicate q.length Op.get)) ∧
      outsOf N f (List.replicate q.length Op.get) = q := by
  induction q with
  | nil =>
    intro f hR
    exact ⟨rfl, hR, rfl⟩
  | cons e q1 ih =>
    intro f hR
    obtain ⟨hget, hR2⟩ := R_get_cons N h0 e q1 f hR
    obtain ⟨hAll, hR3, hOuts⟩ := ih _ hR2
    simp only [hget] at hAll hR3 hOuts
    simp only [List.length_cons, List.replicate_succ]
    refine ⟨?_, ?_, ?_⟩
    · simp [opOk, hget, hAll]
    · simpa [hget] using hR3
    · simp [hget, hOuts]

/-- The operation list of alternating enqueue/dequeue pairs, one pair
per listed entry. -/
def pairOps : List FifoEntry → List Op
  | [] => []
  | e :: es => Op.put e :: Op.get :: pairOps es

lemma pairs_phase (N : Nat) (h0 : 0 < N) (es : List FifoEntry) :
    ∀ f, R N [] f →
      allOk N f (pairOps es) = true ∧
      R N [] (run N f (pairOps es)) ∧
      outsOf N f (pairOps es) = es := by
  induction es with
  | nil => intro f hR; exact ⟨rfl, hR, rfl⟩
  | cons e es ih =>
    intro f hR
    obtain ⟨hok, hR1, _⟩ := R_put_ok N h0 [] f hR (by simpa using h0) e
    rw [List.nil_append] at hR1
    obtain ⟨hget, hR2⟩ := R_get_cons N h0 e [] (FifoPut N f e).1 hR1
    obtain ⟨hAll, hR3, hOuts⟩ := ih _ hR2
    simp only [hget] at hAll hR3 hOuts
    refine ⟨?_, ?_, ?_⟩
    · simp [pairOps, opOk, hok, hget, hAll]
    · simpa [pairOps, hget] using hR3
    · simp [pairOps, hget, hOuts]

/-! Structural well-formedness is preserved, and the write cursor
advances by one modulo N per successful enqueue. -/

lemma WF_step (N : Nat) (h0 : 0 < N) (f : Fifo) (hWF : WF N f) (op : Op) :
    WF N (step N f op) := by
  obtain ⟨hlen, hr, hw⟩ := hWF
  cases op with
  | put e =>
    rcases fifoPut_cases N f e with ⟨_, _, h⟩ | ⟨_, h⟩
    · simp only [step_put, h]
      exact ⟨hlen, hr, hw⟩
    · simp only [step_put, h, wrap_eq_mod N f.pWr hw]
      exact ⟨by simpa using hlen, hr, Nat.mod_lt _ h0⟩
  | get =>
    rcases fifoGet_cases N f with ⟨_, _, h⟩ | ⟨_, h⟩
    · simp only [step_get, h]
      exact ⟨hlen, hr, hw⟩
    · simp only [step_get, h, wrap_eq_mod N f.pRd hr]
      exact ⟨hlen, Nat.mod_lt _ h0, hw⟩

lemma pWr_run (N : Nat) (h0 : 0 < N) (ops : List Op) :
    ∀ f, WF N f → (run N f ops).pWr = (f.pWr + putsOk N f ops) % N := by
  induction ops with
  | nil =>
    intro f hWF
    simp [Nat.mod_eq_of_lt hWF.2.2]
  | cons op ops ih =>
    intro f hWF
    have hWF2 := WF_step N h0 f hWF op
    cases op with
    | put e =>
      rcases fifoPut_cases N f e with ⟨_, _, h⟩ | ⟨_, h⟩
      · simp only [run_cons, putsOk_put, step_put, h]
        simpa using ih f hWF
      · simp only [step_put, h] at hWF2
        have := ih _ hWF2
        simp only [run_cons, putsOk_put, step_put, h, this]
        simp only [wrap_eq_mod N f.pWr hWF.2.2, if_true]
        rw [Nat.mod_add_mod]
        congr 1
        omega
    | get =>
      rcases fifoGet_cases N f with ⟨_, _, h⟩ | ⟨_, h⟩
      · simp only [run_cons, putsOk_get, step_get, h]
        exact ih f hWF
      · simp only [step_get, h] at hWF2
        have := ih _ hWF2
        simp only [run_cons, putsOk_get, step_get, h, this]

/-! Claim theorems. -/

/-- C8: FifoInit always succeeds and establishes the Empty state: it
sets both cursors to 0 and the last-operation-was-read flag to true,
reporting success unconditionally. -/
theorem init_establishes_empty (f : Fifo) :
    (FifoInit f).2 = true ∧ (FifoInit f).1.pRd = 0 ∧ (FifoInit f).1.pWr = 0 ∧
    (FifoInit f).1.fRd = true :=
  ⟨rfl, rfl, rfl, rfl⟩

/-- C10: FifoInit modifies only the cursors and the flag: the slot
contents after initialization are exactly the slot contents before (the
defaultEntry built inside the initializer is never stored). -/
theorem init_preserves_slots (f : Fifo) : (FifoInit f).1.data = f.data := rfl

/-- C3: FifoGet fails (returns no entry) exactly when the last operation
was a read and the cursors coincide; a failed dequeue leaves the state
unchanged; and a dequeue on a freshly initialized buffer fails. -/
theorem dequeue_empty_failure (N : Nat) (f : Fifo) (f0 : Fifo) :
    ((FifoGet N f).2 = none ↔ (f.fRd = true ∧ f.pWr = f.pRd)) ∧
    ((FifoGet N f).2 = none → (FifoGet N f).1 = f) ∧
    FifoGet N (FifoInit f0).1 = ((FifoInit f0).1, none) := by
  refine ⟨?_, ?_, ?_⟩
  · rcases fifoGet_cases N f with ⟨hfr, hwr, h⟩ | ⟨hc, h⟩
    · simp [h, hfr, hwr]
    · rw [h]
      refine iff_of_false (by simp) ?_
      rintro ⟨h1, h2⟩
      rcases hc with hc | hc
      · rw [h1] at hc; cases hc
      · exact hc h2
  · intro hfail
    rcases fifoGet_cases N f with ⟨_, _, h⟩ | ⟨_, h⟩
    · rw [h]
    · rw [h] at hfail; cases hfail
  · rfl

/-- C9: immediately after any successful enqueue the flag marks the
buffer non-empty, so the next dequeue succeeds; immediately after any
successful dequeue the flag marks the buffer non-full, so the next
enqueue succeeds; for any capacity N at least 1 and any state. -/
theorem put_then_get_succeeds (N : Nat) (h1 : 1 ≤ N) (f : Fifo)
    (e e2 : FifoEntry) :
    ((FifoPut N f e).2 = true →
      (FifoGet N (FifoPut N f e).1).2.isSome = true) ∧
    ((FifoGet N f).2.isSome = true →
      (FifoPut N (FifoGet N f).1 e2).2 = true) := by
  constructor
  · intro hok
    rcases fifoPut_cases N f e with ⟨_, _, h⟩ | ⟨_, h⟩
    · rw [h] at hok; cases hok
    · have hfr1 : (FifoPut N f e).1.fRd = false := by rw [h]
      rcases fifoGet_cases N (FifoPut N f e).1 with ⟨hfr2, _, h2⟩ | ⟨_, h2⟩
      · rw [hfr1] at hfr2; cases hfr2
      · rw [h2]; rfl
  · intro hsome
    rcases fifoGet_cases N f with ⟨_, _, h⟩ | ⟨_, h⟩
    · rw [h] at hsome; cases hsome
    · have hfr1 : (FifoGet N f).1.fRd = true := by rw [h]
      rcases fifoPut_cases N (FifoGet N f).1 e2 with ⟨hfr2, _, h2⟩ | ⟨_, h2⟩
      · rw [hfr1] at hfr2; cases hfr2
      · rw [h2]

/-- Witness for C9 at capacity 1: an enqueue into the empty buffer
followed by a dequeue succeeds, and an enqueue after a dequeue from the
full buffer succeeds. -/
theorem put_then_get_succeeds_witness :
    (FifoGet 1 (FifoPut 1 (Fifo.mk [default] 0 0 true) default).1).2.isSome
      = true ∧
    (FifoPut 1 (FifoGet 1 (Fifo.mk [default] 0 0 false)).1 default).2 = true :=
  ⟨(put_then_get_succeeds 1 (by decide) (Fifo.mk [default] 0 0 true)
      default default).1 (by decide),
   (put_then_get_succeeds 1 (by decide) (Fifo.mk [default] 0 0 false)
      default default).2 (by decide)⟩

/-- C5: a successful FifoPut stores the item whole into the slot at the
write cursor, sets the flag to write, advances the write cursor by one
modulo N and leaves the read cursor and the other slots unchanged; a
successful FifoGet returns a copy of the slot at the read cursor, sets
the flag to read, advances the read cursor by one modulo N and leaves
all slots and the write cursor unchanged. -/
theorem success_postconditions (N : Nat) (f : Fifo) (e : FifoEntry)
    (hWF : WF N f) :
    ((FifoPut N f e).2 = true →
      (FifoPut N f e).1.data = f.data.set f.pWr e ∧
      (FifoPut N f e).1.data.getD f.pWr default = e ∧
      (∀ j, j ≠ f.pWr →
        (FifoPut N f e).1.data.getD j default = f.data.getD j default) ∧
      (FifoPut N f e).1.fRd = false ∧
      (FifoPut N f e).1.pWr = (f.pWr + 1) % N ∧
      (FifoPut N f e).1.pRd = f.pRd) ∧
    ((FifoGet N f).2.isSome = true →
      (FifoGet N f).2 = some (f.data.getD f.pRd default) ∧
      (FifoGet N f).1.fRd = true ∧
      (FifoGet N f).1.pRd = (f.pRd + 1) % N ∧
      (FifoGet N f).1.pWr = f.pWr ∧
      (FifoGet N f).1.data = f.data) := by
  obtain ⟨hlen, hr, hw⟩ := hWF
  constructor
  · intro hok
    rcases fifoPut_cases N f e with ⟨_, _, h⟩ | ⟨_, h⟩
    · rw [h] at hok; cases hok
    · rw [h]
      refine ⟨rfl, ?_, ?_, rfl, ?_, rfl⟩
      · dsimp only
        rw [List.getD_eq_getElem _ _ (by simp only [List.length_set]; omega),
          List.getElem_set_self]
      · intro j hj
        dsimp only
        rcases Nat.lt_or_ge j f.data.length with hjlt | hjge
        · rw [List.getD_eq_getElem _ _ (by simp only [List.length_set]; omega),
            List.getElem_set_ne (Ne.symm hj), ← List.getD_eq_getElem _ _ hjlt]
        · rw [List.getD_eq_default _ _ (by simp only [List.length_set]; omega),
            List.getD_eq_default _ _ hjge]
      · dsimp only
        exact wrap_eq_mod N f.pWr hw
  · intro hsome
    rcases fifoGet_cases N f with ⟨_, _, h⟩ | ⟨_, h⟩
    · rw [h] at hsome; cases hsome
    · rw [h]
      refine ⟨rfl, rfl, ?_, rfl, rfl⟩
      dsimp only
      exact wrap_eq_mod N f.pRd hr

/-- Witness for C5 at capacity 1: the enqueue into the empty one-slot
buffer stores the item at slot 0 and flips the flag and cursor as
stated. -/
theorem success_postconditions_witness :
    (FifoPut 1 (Fifo.mk [default] 0 0 true) default).1.data.getD 0 default
      = default ∧
    (FifoPut 1 (Fifo.mk [default] 0 0 true) default).1.fRd = false ∧
    (FifoPut 1 (Fifo.mk [default] 0 0 true) default).1.pWr = (0 + 1) % 1 := by
  have h := (success_postconditions 1 (Fifo.mk [default] 0 0 true) default
    ⟨rfl, by decide, by decide⟩).1 (by decide)
  exact ⟨h.2.1, h.2.2.2.1, h.2.2.2.2.1⟩

lemma run_append (N : Nat) (l1 l2 : List Op) :
    ∀ f, run N f (l1 ++ l2) = run N (run N f l1) l2 := by
  induction l1 with
  | nil => intro f; rfl
  | cons op ops ih => intro f; simpa using ih (step N f op)

lemma allOk_append (N : Nat) (l1 l2 : List Op) :
    ∀ f, allOk N f (l1 ++ l2) = (allOk N f l1 && allOk N (run N f l1) l2) := by
  induction l1 with
  | nil => intro f; simp
  | cons op ops ih =>
    intro f
    simp only [List.cons_append, allOk_cons, run_cons, ih (step N f op),
      Bool.and_assoc]

lemma outsOf_append (N : Nat) (l1 l2 : List Op) :
    ∀ f, outsOf N f (l1 ++ l2) = outsOf N f l1 ++ outsOf N (run N f l1) l2 := by
  induction l1 with
  | nil => intro f; rfl
  | cons op ops ih =>
    intro f
    cases op with
    | put e =>
      simp only [List.cons_append, outsOf_put, run_cons]
      exact ih (step N f (Op.put e))
    | get =>
      simp only [List.cons_append, outsOf_get, run_cons, List.append_assoc]
      rw [ih (step N f Op.get)]

/-- C2: FifoPut fails exactly when the last operation was not a read and
the cursors coincide, the test being made before anything is written: a
failed enqueue returns the state unchanged.  From a freshly initialized
buffer of capacity N, N enqueues all succeed and the next one fails
leaving the state unchanged. -/
theorem enqueue_full_failure (N : Nat) (h0 : 0 < N) (f : Fifo) (e : FifoEntry)
    (f0 : Fifo) (hlen : f0.data.length = N) (es : List FifoEntry)
    (hes : es.length = N) :
    ((FifoPut N f e).2 = false ↔ (f.fRd = false ∧ f.pWr = f.pRd)) ∧
    ((FifoPut N f e).2 = false → (FifoPut N f e).1 = f) ∧
    allOk N (FifoInit f0).1 (es.map Op.put) = true ∧
    FifoPut N (run N (FifoInit f0).1 (es.map Op.put)) e =
      (run N (FifoInit f0).1 (es.map Op.put), false) := by
  obtain ⟨hAll, hR2, _⟩ := puts_phase N h0 es [] (FifoInit f0).1
    (R_init N h0 f0 hlen) (by simp only [List.length_nil, Nat.zero_add]; omega)
  rw [List.nil_append] at hR2
  refine ⟨?_, ?_, hAll, R_put_full N es _ hR2 hes e⟩
  · rcases fifoPut_cases N f e with ⟨hfr, hwr, h⟩ | ⟨hc, h⟩
    · simp [h, hfr, hwr]
    · rw [h]
      refine iff_of_false (by simp) ?_
      rintro ⟨h1, h2⟩
      rcases hc with hc | hc
      · rw [h1] at hc; cases hc
      · exact hc h2
  · intro hfail
    rcases fifoPut_cases N f e with ⟨_, _, h⟩ | ⟨_, h⟩
    · rw [h]
    · rw [h] at hfail; cases hfail

/-- Witness for C2 at capacity 1: the single enqueue succeeds, and the
second enqueue fails returning the state unchanged. -/
theorem enqueue_full_failure_witness :
    allOk 1 (FifoInit (Fifo.mk [default] 0 0 false)).1
      ([default].map Op.put) = true ∧
    FifoPut 1 (run 1 (FifoInit (Fifo.mk [default] 0 0 false)).1
        ([default].map Op.put)) default =
      (run 1 (FifoInit (Fifo.mk [default] 0 0 false)).1
        ([default].map Op.put), false) := by
  have h := enqueue_full_failure 1 (by decide) (Fifo.mk [default] 0 0 true)
    default (Fifo.mk [default] 0 0 false) rfl [default] rfl
  exact ⟨h.2.2.1, h.2.2.2⟩

/-- C4: strict FIFO order: enqueueing any sequence of at most N distinct
items into a freshly initialized capacity-N buffer and then dequeueing
the same number of times succeeds throughout and returns exactly the
enqueued sequence in order. -/
theorem fifo_order_preservation (N : Nat) (h0 : 0 < N) (f0 : Fifo)
    (hlen : f0.data.length = N) (items : List FifoEntry)
    (hm : items.length ≤ N) (hdist : items.Pairwise (fun a b => a ≠ b)) :
    allOk N (FifoInit f0).1
      (items.map Op.put ++ List.replicate items.length Op.get) = true ∧
    outsOf N (FifoInit f0).1
      (items.map Op.put ++ List.replicate items.length Op.get) = items := by
  obtain ⟨hAllP, hRP, hOutsP⟩ := puts_phase N h0 items [] (FifoInit f0).1
    (R_init N h0 f0 hlen) (by simp only [List.length_nil, Nat.zero_add]; omega)
  rw [List.nil_append] at hRP
  obtain ⟨hAllG, _, hOutsG⟩ := gets_phase N h0 items _ hRP
  constructor
  · rw [allOk_append, hAllP, Bool.true_and]
    exact hAllG
  · rw [outsOf_append, hOutsP, List.nil_append]
    exact hOutsG

/-- Witness for C4 at capacity 2 with two distinct items: both enqueues
and both dequeues succeed and the items come back in order. -/
theorem fifo_order_preservation_witness :
    allOk 2 (FifoInit (Fifo.mk [default, default] 0 0 false)).1
      (([(FifoEntry.mk 1 "" 0), (FifoEntry.mk 2 "" 0)].map Op.put) ++
        List.replicate 2 Op.get) = true ∧
    outsOf 2 (FifoInit (Fifo.mk [default, default] 0 0 false)).1
      (([(FifoEntry.mk 1 "" 0), (FifoEntry.mk 2 "" 0)].map Op.put) ++
        List.replicate 2 Op.get) =
      [(FifoEntry.mk 1 "" 0), (FifoEntry.mk 2 "" 0)] :=
  fifo_order_preservation 2 (by decide) (Fifo.mk [default, default] 0 0 false)
    rfl [(FifoEntry.mk 1 "" 0), (FifoEntry.mk 2 "" 0)] (by decide) (by decide)

/-- C6: wrap-around is exact: from any well-formed state, a run with
exactly k times N successful enqueues brings the write cursor back to
its starting value; and from a freshly initialized capacity-N buffer,
3 times N alternating enqueue/dequeue pairs all succeed. -/
theorem wraparound_exact (N : Nat) (h0 : 0 < N) :
    (∀ (k : Nat) (f : Fifo) (ops : List Op), WF N f →
      putsOk N f ops = k * N → (run N f ops).pWr = f.pWr) ∧
    (∀ (f0 : Fifo) (es : List FifoEntry), f0.data.length = N →
      es.length = 3 * N → allOk N (FifoInit f0).1 (pairOps es) = true) := by
  constructor
  · intro k f ops hWF hputs
    rw [pWr_run N h0 ops f hWF, hputs, Nat.add_mul_mod_self_right]
    exact Nat.mod_eq_of_lt hWF.2.2
  · intro f0 es hlen _
    exact (pairs_phase N h0 es _ (R_init N h0 f0 hlen)).1

/-- Witness for C6 at capacity 1: one successful enqueue (1 times 1)
returns the write cursor to 0, and three enqueue/dequeue pairs on the
fresh buffer all succeed. -/
theorem wraparound_exact_witness :
    (run 1 (Fifo.mk [default] 0 0 true) [Op.put default]).pWr
      = (Fifo.mk [default] 0 0 true).pWr ∧
    allOk 1 (FifoInit (Fifo.mk [default] 0 0 false)).1
      (pairOps [default, default, default]) = true := by
  have h := wraparound_exact 1 (by decide)
  exact ⟨h.1 1 (Fifo.mk [default] 0 0 true) [Op.put default]
      ⟨rfl, by decide, by decide⟩ (by decide),
    h.2 (Fifo.mk [default] 0 0 false) [default, default, default] rfl
      (by decide)⟩

/-- C1: in every state reachable from a freshly initialized capacity-N
buffer both cursors stay in [0, N); when the cursors coincide the net
number of held entries (successful enqueues minus successful dequeues)
is 0 when the flag records a read and N when it records a write; when
they differ it equals (writeIndex - readIndex + N) mod N. -/
theorem reachable_invariant (N : Nat) (h0 : 0 < N) (f0 : Fifo)
    (hlen : f0.data.length = N) (ops : List Op) :
    (run N (FifoInit f0).1 ops).pRd < N ∧
    (run N (FifoInit f0).1 ops).pWr < N ∧
    ((run N (FifoInit f0).1 ops).pRd = (run N (FifoInit f0).1 ops).pWr →
      ((run N (FifoInit f0).1 ops).fRd = true →
        putsOk N (FifoInit f0).1 ops = getsOk N (FifoInit f0).1 ops) ∧
      ((run N (FifoInit f0).1 ops).fRd = false →
        putsOk N (FifoInit f0).1 ops = getsOk N (FifoInit f0).1 ops + N)) ∧
    ((run N (FifoInit f0).1 ops).pRd ≠ (run N (FifoInit f0).1 ops).pWr →
      (putsOk N (FifoInit f0).1 ops : Int) - getsOk N (FifoInit f0).1 ops =
        (((run N (FifoInit f0).1 ops).pWr : Int) -
          (run N (FifoInit f0).1 ops).pRd + N) % N) := by
  have hR := R_run N h0 ops [] (FifoInit f0).1 (R_init N h0 f0 hlen)
  have hc := counts_run N h0 ops [] (FifoInit f0).1 (R_init N h0 f0 hlen)
  simp only [List.length_nil, Nat.zero_add] at hc
  obtain ⟨_, hr, hw, hqn, hweq, hft, hff, _⟩ := hR
  refine ⟨hr, hw, ?_, ?_⟩
  · intro hrw
    have hlen0N : (absRun N [] ops).length = 0 ∨
        (absRun N [] ops).length = N := by
      have heq : ((run N (FifoInit f0).1 ops).pRd +
          (absRun N [] ops).length) % N = (run N (FifoInit f0).1 ops).pRd := by
        rw [← hweq]; exact hrw.symm
      rw [add_mod_cases N _ _ hr hqn] at heq
      split at heq <;> omega
    constructor
    · intro hfr
      have := hft hfr
      omega
    · intro hfr
      have := hff hfr
      omega
  · intro hrw
    have hne0 : (absRun N [] ops).length ≠ 0 := by
      intro h00
      apply hrw
      rw [hweq, h00, Nat.add_zero, Nat.mod_eq_of_lt hr]
    have hneN : (absRun N [] ops).length ≠ N := by
      intro hNN
      apply hrw
      rw [hweq, hNN, Nat.add_mod_right, Nat.mod_eq_of_lt hr]
    have hltN : (absRun N [] ops).length < N := Nat.lt_of_le_of_ne hqn hneN
    have hdiff : (putsOk N (FifoInit f0).1 ops : Int) -
        getsOk N (FifoInit f0).1 ops = (absRun N [] ops).length := by
      omega
    rw [hdiff]
    rcases Nat.lt_or_ge ((run N (FifoInit f0).1 ops).pRd +
        (absRun N [] ops).length) N with hcase | hcase
    · have hwv : (run N (FifoInit f0).1 ops).pWr =
          (run N (FifoInit f0).1 ops).pRd + (absRun N [] ops).length := by
        rw [hweq]; exact Nat.mod_eq_of_lt hcase
      rw [hwv]
      push_cast
      rw [show ((run N (FifoInit f0).1 ops).pRd : Int) +
          (absRun N [] ops).length - (run N (FifoInit f0).1 ops).pRd + N
          = ((absRun N [] ops).length : Int) + 1 * N by ring]
      rw [Int.add_mul_emod_self]
      exact (Int.emod_eq_of_lt (Int.natCast_nonneg _)
        (by exact_mod_cast hltN)).symm
    · have hwv : (run N (FifoInit f0).1 ops).pWr =
          (run N (FifoInit f0).1 ops).pRd + (absRun N [] ops).length - N := by
        rw [hweq, Nat.mod_eq_sub_mod hcase]
        exact Nat.mod_eq_of_lt (by omega)
      have hwInt : ((run N (FifoInit f0).1 ops).pWr : Int) =
          ((run N (FifoInit f0).1 ops).pRd : Int) +
            (absRun N [] ops).length - N := by
        omega
      rw [hwInt, show ((run N (FifoInit f0).1 ops).pRd : Int) +
          (absRun N [] ops).length - N - (run N (FifoInit f0).1 ops).pRd + N
          = ((absRun N [] ops).length : Int) by ring]
      exact (Int.emod_eq_of_lt (Int.natCast_nonneg _)
        (by exact_mod_cast hltN)).symm

/-- Witness for C1 at capacity 1 with one enqueue and one dequeue: both
cursors are in range and, the cursors coinciding with the flag set to
read, the successful enqueues balance the successful dequeues. -/
theorem reachable_invariant_witness :
    (run 1 (FifoInit (Fifo.mk [default] 0 0 false)).1
      [Op.put default, Op.get]).pRd < 1 ∧
    putsOk 1 (FifoInit (Fifo.mk [default] 0 0 false)).1
        [Op.put default, Op.get] =
      getsOk 1 (FifoInit (Fifo.mk [default] 0 0 false)).1
        [Op.put default, Op.get] := by
  have h := reachable_invariant 1 (by decide) (Fifo.mk [default] 0 0 false)
    rfl [Op.put default, Op.get]
  exact ⟨h.1, (h.2.2.1 (by decide)).1 (by decide)⟩

/-- The entry used in the concrete demo scenario: id i, empty name,
timestamp 0. -/
def demoEntry (i : Nat) : FifoEntry := { ID := i, Name := "", TimeStamp := 0 }

/-- The freshly initialized demo buffer of capacity NFIFOCAP = 4. -/
def demoStart : Fifo :=
  (FifoInit { data := List.replicate NFIFOCAP (demoEntry 0)
            , pRd := 0, pWr := 0, fRd := false }).1

/-- C7: the concrete N = 4 scenario: ids 1,2,3,4 enqueue successfully,
id 5 is rejected (full), a dequeue returns id 1, id 5 then enqueues
successfully, four dequeues return ids 2,3,4,5 in order, and a final
dequeue fails (empty). -/
theorem concrete_scenario_N4 :
    (FifoPut NFIFOCAP demoStart (demoEntry 1)).2 = true ∧
    (FifoPut NFIFOCAP
      (FifoPut NFIFOCAP demoStart (demoEntry 1)).1 (demoEntry 2)).2 = true ∧
    (FifoPut NFIFOCAP (FifoPut NFIFOCAP
      (FifoPut NFIFOCAP demoStart (demoEntry 1)).1 (demoEntry 2)).1
      (demoEntry 3)).2 = true ∧
    (FifoPut NFIFOCAP (FifoPut NFIFOCAP (FifoPut NFIFOCAP
      (FifoPut NFIFOCAP demoStart (demoEntry 1)).1 (demoEntry 2)).1
      (demoEntry 3)).1 (demoEntry 4)).2 = true ∧
    (FifoPut NFIFOCAP (run NFIFOCAP demoStart
      [Op.put (demoEntry 1), Op.put (demoEntry 2), Op.put (demoEntry 3),
        Op.put (demoEntry 4)]) (demoEntry 5)).2 = false ∧
    (FifoGet NFIFOCAP (run NFIFOCAP demoStart
      [Op.put (demoEntry 1), Op.put (demoEntry 2), Op.put (demoEntry 3),
        Op.put (demoEntry 4), Op.put (demoEntry 5)])).2.map FifoEntry.ID
      = some 1 ∧
    (FifoPut NFIFOCAP (run NFIFOCAP demoStart
      [Op.put (demoEntry 1), Op.put (demoEntry 2), Op.put (demoEntry 3),
        Op.put (demoEntry 4), Op.put (demoEntry 5), Op.get])
      (demoEntry 5)).2 = true ∧
    outsOf NFIFOCAP demoStart
      [Op.put (demoEntry 1), Op.put (demoEntry 2), Op.put (demoEntry 3),
        Op.put (demoEntry 4), Op.put (demoEntry 5), Op.get,
        Op.put (demoEntry 5), Op.get, Op.get, Op.get, Op.get] =
      [demoEntry 1, demoEntry 2, demoEntry 3, demoEntry 4, demoEntry 5] ∧
    (FifoGet NFIFOCAP (run NFIFOCAP demoStart
      [Op.put (demoEntry 1), Op.put (demoEntry 2), Op.put (demoEntry 3),
        Op.put (demoEntry 4), Op.put (demoEntry 5), Op.get,
        Op.put (demoEntry 5), Op.get, Op.get, Op.get, Op.get])).2
      = none := by
  decide

end CFIFO
